import Mathlib

/-!
# Verification of the remote-task orchestration subsystem

Shallow embedding, in Lean 4, of the host-registry, load-probing,
node-selection, task-submission and task-monitoring logic of the
Photogrammetry-ODM pipeline (files `src/pipeline/odm_client.py`,
`src/pipeline/odm_task.py`, `src/pipeline/run.py`), together with proofs
of the specified properties.

Python strings are embedded as `List Char`; `str.replace` with a
one-character pattern and a one-character replacement is character-wise
substitution, `str.split(",")` is splitting on the comma character
(yielding one empty token for the empty string), and `str.strip()`
removes leading and trailing whitespace characters.  Network effects are
abstracted as explicitly passed functions or as scripted event lists.
-/

namespace ODM

/-! ## Host registry: `get_odm_hosts` (`odm_client.py`, lines 14-44) -/

/-- The whitespace characters stripped by Python `str.strip()`
(ASCII range): space, tab, newline, carriage return, vertical tab,
form feed. -/
def isPyWhitespace (c : Char) : Bool :=
  c = ' ' || c = '\t' || c = '\n' || c = '\x0d' || c = '\x0b' || c = '\x0c'

/-- Python `str.strip()`: drop leading and trailing whitespace. -/
def pyStrip (s : List Char) : List Char :=
  ((s.dropWhile isPyWhitespace).reverse.dropWhile isPyWhitespace).reverse

/-- Python `s.split(sep)` for a one-character separator: the empty
string yields one empty token, and each separator occurrence starts a
new token. -/
def splitOnChar (sep : Char) : List Char → List (List Char)
  | [] => [[]]
  | c :: rest =>
      match splitOnChar sep rest with
      | [] => [[]]
      | t :: ts => if c = sep then [] :: t :: ts else (c :: t) :: ts

/-- `raw.replace("\n", ",").replace(" ", ",")`: both patterns are single
characters, so the two replacements are the character-wise substitution
sending `'\n'` and `' '` to `','`. -/
def sepSubst (raw : List Char) : List Char :=
  (raw.map (fun c => if c = '\n' then ',' else c)).map
    (fun c => if c = ' ' then ',' else c)

/-- `get_odm_hosts` (`odm_client.py` lines 41-44) applied to the raw
configured value:
`parts = [p.strip() for p in raw.replace("\n", ",").replace(" ", ",").split(",") if p.strip()]`
then `parts or [default]`.  (`os.getenv` merely chooses which string is
`raw`; the parsing is total in `raw`.) -/
def get_odm_hosts (raw : List Char) («default» : List Char) : List (List Char) :=
  let parts := ((splitOnChar ',' (sepSubst raw)).map pyStrip).filter (· ≠ [])
  if parts = [] then [«default»] else parts

/-- Splitting on a character predicate rather than a single character;
used to state what the spec's words describe. -/
def splitOnPred (sep : Char → Bool) : List Char → List (List Char)
  | [] => [[]]
  | c :: rest =>
      match splitOnPred sep rest with
      | [] => [[]]
      | t :: ts => if sep c then [] :: t :: ts else (c :: t) :: ts

/-- Modelled from the spec's words for C6: host resolution that splits on
commas, newlines, and (all) whitespace, trims, drops empty tokens, and
falls back to `[default]`. -/
def get_odm_hosts_specSplit (raw : List Char) («default» : List Char) :
    List (List Char) :=
  let parts :=
    ((splitOnPred (fun c => c = ',' || isPyWhitespace c) raw).map pyStrip).filter
      (· ≠ [])
  if parts = [] then [«default»] else parts

/-- Host resolution restated with a three-character separator set
(comma, space, newline); the amended form of C6. -/
def get_odm_hosts_threeSep (raw : List Char) («default» : List Char) :
    List (List Char) :=
  let parts :=
    ((splitOnPred (fun c => c = ',' || c = ' ' || c = '\n') raw).map pyStrip).filter
      (· ≠ [])
  if parts = [] then [«default»] else parts

/-! ## Options merge: `_merge_odm_options` (`run.py`, lines 45-65) -/

/-- A Python `dict` observed through key lookup: a map from keys to
optional values. -/
def Dict (K V : Type) := K → Option V

/-- `_merge_odm_options` (`run.py` lines 63-65): `merged = dict(base)`
(a fresh shallow copy, so neither input is written to) followed by
`merged.update(extra)`, which stores `extra`'s value for every key of
`extra` and leaves other keys at `base`'s value.  The `extra or {}`
guard replaces a missing override map by the empty one. -/
def _merge_odm_options {K V : Type} (base : Dict K V) (extra : Option (Dict K V)) :
    Dict K V :=
  fun k =>
    match extra with
    | none => base k
    | some e =>
        match e k with
        | some v => some v
        | none => base k

/-! ## Load prober: `_node_load` (`odm_client.py`, lines 177-219) -/

/-- Outcome of the per-task `GET /task/<uuid>/info` call made by
`_node_load` for one listed task: the request may raise (`fail`), or
return a payload whose `status.code` field is the given optional
integer. -/
inductive TaskProbe where
  | fail : TaskProbe
  | code : Option Int → TaskProbe
deriving DecidableEq, Repr

/-- The counting loop of `_node_load` (`odm_client.py` lines 206-217):
status code 20 counts as running, 10 as queued, a failed per-task query
is swallowed (`except Exception: continue`) and counts as neither. -/
def countRQ : List TaskProbe → Nat × Nat
  | [] => (0, 0)
  | t :: rest =>
      let rq := countRQ rest
      match t with
      | .fail => rq
      | .code c =>
          if c = some 20 then (rq.1 + 1, rq.2)
          else if c = some 10 then (rq.1, rq.2 + 1)
          else rq

/-- `_node_load` (`odm_client.py` lines 200-219) given the per-task
outcomes for the uuids returned by `GET /task/list` (entries of the task
list that are not dicts carrying a uuid are dropped before this point):
returns `(running, queued, len(uuids))`. -/
def _node_load (tasks : List TaskProbe) : Nat × Nat × Nat :=
  ((countRQ tasks).1, (countRQ tasks).2, tasks.length)

/-! ## Node selector: `pick_best_odm_host` (`odm_client.py`, lines 222-265) -/

/-- Python's `cand[:3] < best[:3]` on `(running, queued, total)` triples:
lexicographic comparison, fewer running first, then fewer queued, then
fewer total. -/
def loadLt (a b : Nat × Nat × Nat) : Bool :=
  decide (a.1 < b.1 ∨ (a.1 = b.1 ∧ (a.2.1 < b.2.1 ∨
    (a.2.1 = b.2.1 ∧ a.2.2 < b.2.2))))

/-- The probing loop of `pick_best_odm_host` (`odm_client.py` lines
254-263).  `probe h` abstracts `_node_load(_normalize_base_url(h))`:
`none` when the probe raises (the host is skipped by
`except Exception: continue`), `some load` otherwise.  `best` carries
the best `(load, host)` seen so far; a candidate replaces it only when
its load triple is strictly smaller. -/
def pickBestGo (probe : List Char → Option (Nat × Nat × Nat)) :
    List (List Char) → Option ((Nat × Nat × Nat) × List Char) →
    Option ((Nat × Nat × Nat) × List Char)
  | [], best => best
  | h :: rest, best =>
      match probe h with
      | none => pickBestGo probe rest best
      | some load =>
          match best with
          | none => pickBestGo probe rest (some (load, h))
          | some (bl, bh) =>
              if loadLt load bl then pickBestGo probe rest (some (load, h))
              else pickBestGo probe rest (some (bl, bh))

/-- `pick_best_odm_host` (`odm_client.py` lines 251-265): raises
`ValueError` on an empty host list, otherwise runs the probing loop and
returns the best host, falling back to `hosts[0]` when every probe
failed. -/
def pick_best_odm_host (hosts : List (List Char))
    (probe : List Char → Option (Nat × Nat × Nat)) :
    Except (List Char) (List Char) :=
  match hosts with
  | [] => .error ("hosts must be non-empty".toList)
  | h0 :: rest =>
      match pickBestGo probe (h0 :: rest) none with
      | some (_, h) => .ok h
      | none => .ok h0

/-! ## Task submitter: `submit_task` (`odm_task.py`, lines 37-96) -/

/-- The image-collection and precondition part of `submit_task`
(`odm_task.py` lines 64-66): sort the discovered `*.jpg` file names,
raise `ValueError` when there are none, otherwise submit them (the
submission itself is the remote side effect; its observable local value
is the sorted upload list). -/
def submit_task (images : List (List Char)) :
    Except (List Char) (List (List Char)) :=
  let sortedImages := images.mergeSort (fun a b => decide (a ≤ b))
  if sortedImages = [] then .error ("No images found".toList)
  else .ok sortedImages

/-- The upload-progress callback `on_upload` of `submit_task`
(`odm_task.py` lines 70-85), run over the sequence of truncated
percentages `int(pct)` it is invoked with.  `last` is the mutable cell
`last = {"p": -1}`; a value is reported (logged) only when
`p >= last["p"] + 5`, and then becomes the new `last["p"]`.  Returns the
list of reported values in order. -/
def uploadReports : List Int → Int → List Int
  | [], _ => []
  | p :: rest, last =>
      if last + 5 ≤ p then p :: uploadReports rest p
      else uploadReports rest last

/-- The values reported across a whole upload, starting from the initial
`last["p"] = -1`. -/
def on_upload_run (pcts : List Int) : List Int :=
  uploadReports pcts (-1)

/-! ## Task monitor: `wait_for_completion` (`odm_task.py`, lines 160-249) -/

/-- The status payload of one successful `task.info()` call, after the
normalisations applied by the monitor: `status` is the string produced
by `_status_to_str`, `progress` the integer `int(info.progress or 0)`,
`last_error` the optional error detail. -/
structure StatusInfo where
  status : List Char
  progress : Int
  lastError : Option (List Char)
deriving DecidableEq, Repr

/-- One poll cycle's interaction with the remote node: the `task.info()`
call raises a connection error, raises a not-found response error, or
returns a status payload. -/
inductive PollEvent where
  | connError : PollEvent
  | notFound : PollEvent
  | ok : StatusInfo → PollEvent
deriving DecidableEq, Repr

/-- Observable outcome of running the monitor against a scripted event
sequence.  Each fatal constructor carries the data interpolated into the
`RuntimeError` message at the corresponding `raise` site; `reports` is
the sequence of progress values shown to the observer (the progress bar)
by the `progress != last_progress` block. -/
inductive MonitorOutcome where
  | completed : (reports : List Int) → MonitorOutcome
  | fatalConnLost : (taskId : List Char) → (reports : List Int) → MonitorOutcome
  | fatalNotFound : (taskId : List Char) → (reports : List Int) → MonitorOutcome
  | fatalTerminal : (status : List Char) → (lastError : Option (List Char)) →
      (info : StatusInfo) → (lastProgress : Int) → (reports : List Int) →
      MonitorOutcome
  | pending : (connErrors : Nat) → (lastProgress : Int) →
      (reports : List Int) → MonitorOutcome
deriving DecidableEq, Repr

/-- The polling loop of `wait_for_completion` (`odm_task.py` lines
198-249), driven by a scripted list of poll events (the script ending
corresponds to the loop still running; the loop itself has no exit other
than the returns and raises modelled here).  State threaded through the
loop: `consecutive_conn_errors`, `last_progress` (initially `-1`), and
the list of progress reports made so far.  On a connection error the
counter is incremented and checked against the ceiling; on a not-found
response the monitor fails at once; on a successful query the counter
resets to zero, a changed progress value is reported clamped to
`[0, 100]` (`pbar.n = max(0, min(100, progress))`), and a terminal
status ends the loop. -/
def waitLoop (taskId : List Char) (maxConnErrors : Nat) :
    List PollEvent → Nat → Int → List Int → MonitorOutcome
  | [], conn, lastProgress, reports => .pending conn lastProgress reports
  | .connError :: rest, conn, lastProgress, reports =>
      if maxConnErrors ≤ conn + 1 then .fatalConnLost taskId reports
      else waitLoop taskId maxConnErrors rest (conn + 1) lastProgress reports
  | .notFound :: _, _, _, reports => .fatalNotFound taskId reports
  | .ok info :: rest, _, lastProgress, reports =>
      let lastProgress' := info.progress
      let reports' :=
        if info.progress ≠ lastProgress then
          reports ++ [max 0 (min 100 info.progress)]
        else reports
      if info.status = "COMPLETED".toList then .completed reports'
      else if info.status = "FAILED".toList ∨ info.status = "CANCELED".toList then
        .fatalTerminal info.status info.lastError info lastProgress' reports'
      else waitLoop taskId maxConnErrors rest 0 lastProgress' reports'

/-- `wait_for_completion` (`odm_task.py` line 160): the loop started
with a zero failure counter, `last_progress = -1`, no reports, and the
default ceiling `max_connection_errors = 30`. -/
def wait_for_completion (taskId : List Char) (events : List PollEvent)
    (maxConnErrors : Nat := 30) : MonitorOutcome :=
  waitLoop taskId maxConnErrors events 0 (-1) []

/-- A poll event whose query succeeds with the non-terminal status
`RUNNING` and the given progress; used to script progress sequences. -/
def okEvent (p : Int) : PollEvent :=
  .ok ⟨"RUNNING".toList, p, none⟩

/-- The progress reports contained in a monitor outcome. -/
def MonitorOutcome.reportList : MonitorOutcome → List Int
  | .completed reports => reports
  | .fatalConnLost _ reports => reports
  | .fatalNotFound _ reports => reports
  | .fatalTerminal _ _ _ _ reports => reports
  | .pending _ _ reports => reports

/-! ## Theorems -/

/-- C10: for every probe of a node that successfully lists its tasks,
the load sample satisfies `running + queued ≤ total`, `total` is the
number of tasks in the task list, and a task whose per-task status query
fails contributes to neither `running` nor `queued` but still counts in
`total`. -/
theorem node_load_bounds (tasks pre post : List TaskProbe) :
    (_node_load tasks).1 + (_node_load tasks).2.1 ≤ (_node_load tasks).2.2
    ∧ (_node_load tasks).2.2 = tasks.length
    ∧ (_node_load (pre ++ TaskProbe.fail :: post)).1 = (_node_load (pre ++ post)).1
    ∧ (_node_load (pre ++ TaskProbe.fail :: post)).2.1
        = (_node_load (pre ++ post)).2.1
    ∧ (_node_load (pre ++ TaskProbe.fail :: post)).2.2 = (pre ++ post).length + 1 := by
  have hle : ∀ l : List TaskProbe, (countRQ l).1 + (countRQ l).2 ≤ l.length := by
    intro l
    induction l with
    | nil => simp [countRQ]
    | cons t rest ih =>
        cases t with
        | fail => simpa [countRQ] using Nat.le_succ_of_le ih
        | code c =>
            simp only [countRQ, List.length_cons]
            split
            · omega
            · split <;> omega
  have hskip : ∀ pre post : List TaskProbe,
      countRQ (pre ++ TaskProbe.fail :: post) = countRQ (pre ++ post) := by
    intro pre post
    induction pre with
    | nil => simp [countRQ]
    | cons t rest ih => cases t <;> simp [countRQ, ih]
  refine ⟨hle tasks, rfl, ?_, ?_, ?_⟩
  · simp [_node_load, hskip]
  · simp [_node_load, hskip]
  · simp [_node_load]
    omega

/-- C3: a not-found fault fails the monitor immediately and fatally on
the cycle in which it occurs, whatever the current connectivity-failure
counter, and the remaining script is never consulted (no retry). -/
theorem notfound_fatal (taskId : List Char) (maxConnErrors conn : Nat)
    (rest : List PollEvent) (lastProgress : Int) (reports : List Int) :
    waitLoop taskId maxConnErrors (.notFound :: rest) conn lastProgress reports
      = .fatalNotFound taskId reports := rfl

/-- C7: the options merge takes every key of the override map to the
override's value, leaves every other key at the base map's value (so no
key of either map is dropped), and, being a pure function of its two
arguments, builds a new mapping rather than changing either input. -/
theorem merge_options_spec {K V : Type} (base extra : Dict K V) :
    (∀ k v, extra k = some v → _merge_odm_options base (some extra) k = some v)
    ∧ (∀ k, extra k = none → _merge_odm_options base (some extra) k = base k)
    ∧ (∀ k, (extra k).isSome → (_merge_odm_options base (some extra) k).isSome) := by
  refine ⟨fun k v hv => ?_, fun k hk => ?_, fun k hk => ?_⟩
  · simp [_merge_odm_options, hv]
  · simp [_merge_odm_options, hk]
  · rcases hv : extra k with _ | v
    · rw [hv] at hk; simp at hk
    · simp [_merge_odm_options, hv]

/-- A concrete base options map for exercising the merge. -/
def baseOpts : Dict Nat Nat :=
  fun k => if k = 1 then some 10 else if k = 2 then some 20 else none

/-- A concrete override options map colliding with `baseOpts` on key 2. -/
def extraOpts : Dict Nat Nat :=
  fun k => if k = 2 then some 99 else none

/-- Witness for C7 at concrete maps: the collision key takes the
override's value and the non-colliding key keeps the base value. -/
theorem merge_options_spec_witness :
    _merge_odm_options baseOpts (some extraOpts) 2 = some 99
    ∧ _merge_odm_options baseOpts (some extraOpts) 1 = baseOpts 1 :=
  ⟨(merge_options_spec baseOpts extraOpts).1 2 99 rfl,
   (merge_options_spec baseOpts extraOpts).2.1 1 rfl⟩

/-- C8: node selection raises `ValueError` exactly when the host list is
empty, and task submission raises `ValueError` exactly when the set of
input image files is empty. -/
theorem precondition_valueerror (hosts : List (List Char))
    (probe : List Char → Option (Nat × Nat × Nat)) (images : List (List Char)) :
    ((∃ e, pick_best_odm_host hosts probe = .error e) ↔ hosts = [])
    ∧ ((∃ e, submit_task images = .error e) ↔ images = []) := by
  constructor
  · constructor
    · rintro ⟨e, he⟩
      cases hosts with
      | nil => rfl
      | cons h0 rest =>
          rw [pick_best_odm_host] at he
          rcases hb : pickBestGo probe (h0 :: rest) none with _ | ⟨l, h⟩ <;>
            simp [hb] at he
    · rintro rfl
      exact ⟨_, rfl⟩
  · constructor
    · rintro ⟨e, he⟩
      rw [submit_task] at he
      split at he
      · rename_i hnil
        have := @List.length_mergeSort _ (fun a b : List Char => decide (a ≤ b)) images
        rw [hnil] at this
        simpa using (List.length_eq_zero.mp this.symm)
      · exact absurd he (by simp)
    · rintro rfl
      exact ⟨"No images found".toList, by simp [submit_task, List.mergeSort_nil]⟩

/-- Witness for C8 at concrete inputs: both the empty host list and the
empty image set produce errors. -/
theorem precondition_valueerror_witness :
    (∃ e, pick_best_odm_host [] (fun _ => none) = .error e)
    ∧ (∃ e, submit_task [] = .error e) :=
  ⟨(precondition_valueerror [] (fun _ => none) []).1.mpr rfl,
   (precondition_valueerror [] (fun _ => none) []).2.mpr rfl⟩

/-- C9: for every monotonically non-decreasing sequence of upload
percentages delivered to the submitter's callback, the values actually
reported are strictly increasing and consecutive reported values differ
by at least 5, so each 5-point milestone is observed at most once. -/
theorem upload_milestone_spacing (pcts : List Int) (_hmono : pcts.Chain' (· ≤ ·)) :
    (on_upload_run pcts).Chain' (fun a b => a + 5 ≤ b)
    ∧ (on_upload_run pcts).Pairwise (· < ·) := by
  have key : ∀ (l : List Int) (last : Int),
      (∀ x ∈ uploadReports l last, last + 5 ≤ x)
      ∧ (uploadReports l last).Pairwise (fun a b => a + 5 ≤ b) := by
    intro l
    induction l with
    | nil => intro last; simp [uploadReports]
    | cons p rest ih =>
        intro last
        by_cases h : last + 5 ≤ p
        · rw [uploadReports, if_pos h]
          refine ⟨fun x hx => ?_, ?_⟩
          · rcases List.mem_cons.mp hx with rfl | hx
            · exact h
            · have := (ih p).1 x hx
              omega
          · exact List.pairwise_cons.mpr ⟨fun x hx => (ih p).1 x hx, (ih p).2⟩
        · rw [uploadReports, if_neg h]
          exact ⟨fun x hx => (ih last).1 x hx, (ih last).2⟩
  have hp := (key pcts (-1)).2
  exact ⟨hp.chain', hp.imp (fun h => by omega)⟩

/-- Witness for C9 at the concrete callback sequence `[0, 5, 7, 12]`. -/
theorem upload_milestone_spacing_witness :
    ([0, 5, 7, 12] : List Int).Chain' (· ≤ ·)
    ∧ ((on_upload_run [0, 5, 7, 12]).Chain' (fun a b => a + 5 ≤ b)
        ∧ (on_upload_run [0, 5, 7, 12]).Pairwise (· < ·)) :=
  ⟨by norm_num [List.chain'_cons],
   upload_milestone_spacing [0, 5, 7, 12] (by norm_num [List.chain'_cons])⟩

/-- C2: below the ceiling a connectivity fault increments the counter
and polling continues, a successful query resets the counter to zero,
the counter reaching the default ceiling 30 fails fatally naming the
task id; 29 consecutive faults followed by one success do not fail,
while 30 consecutive faults do. -/
theorem conn_fault_ceiling (taskId : List Char) (rest : List PollEvent)
    (conn : Nat) (lastProgress : Int) (reports : List Int) (info : StatusInfo)
    (hconn : conn + 1 < 30)
    (hnt : info.status ≠ "COMPLETED".toList ∧ info.status ≠ "FAILED".toList
      ∧ info.status ≠ "CANCELED".toList) :
    (waitLoop taskId 30 (.connError :: rest) conn lastProgress reports
        = waitLoop taskId 30 rest (conn + 1) lastProgress reports)
    ∧ (waitLoop taskId 30 (.connError :: rest) 29 lastProgress reports
        = .fatalConnLost taskId reports)
    ∧ (∀ conn', waitLoop taskId 30 (.ok info :: rest) conn' lastProgress reports
        = waitLoop taskId 30 rest 0 info.progress
            (if info.progress ≠ lastProgress then
              reports ++ [max 0 (min 100 info.progress)] else reports))
    ∧ (wait_for_completion taskId (List.replicate 29 .connError ++ [.ok info])
        = .pending 0 info.progress
            (if info.progress ≠ -1 then [max 0 (min 100 info.progress)] else []))
    ∧ (wait_for_completion taskId (List.replicate 30 .connError)
        = .fatalConnLost taskId []) := by
  have hnc2 : info.status = "FAILED".toList ∨ info.status = "CANCELED".toList → False := by
    rintro (h | h)
    exacts [hnt.2.1 h, hnt.2.2 h]
  have hok : ∀ (conn' : Nat) (evs : List PollEvent) (lp : Int) (rs : List Int),
      waitLoop taskId 30 (.ok info :: evs) conn' lp rs
        = waitLoop taskId 30 evs 0 info.progress
            (if info.progress ≠ lp then rs ++ [max 0 (min 100 info.progress)]
             else rs) := by
    intro conn' evs lp rs
    simp only [waitLoop]
    rw [if_neg hnt.1, if_neg hnc2]
  have hskip : ∀ (n c : Nat) (evs : List PollEvent) (lp : Int) (rs : List Int),
      c + n < 30 →
      waitLoop taskId 30 (List.replicate n .connError ++ evs) c lp rs
        = waitLoop taskId 30 evs (c + n) lp rs := by
    intro n
    induction n with
    | zero => intro c evs lp rs _; simp
    | succ m ih =>
        intro c evs lp rs h
        rw [List.replicate_succ, List.cons_append]
        simp only [waitLoop]
        rw [if_neg (by omega), ih (c + 1) evs lp rs (by omega)]
        congr 1
        omega
  refine ⟨?_, ?_, fun conn' => hok conn' rest lastProgress reports, ?_, ?_⟩
  · simp only [waitLoop]
    rw [if_neg (by omega)]
  · simp only [waitLoop]
    rw [if_pos (by omega)]
  · rw [wait_for_completion, hskip 29 0 [.ok info] (-1) [] (by omega)]
    rw [hok 29 [] (-1) []]
    simp [waitLoop]
  · rw [wait_for_completion, List.replicate_succ', hskip 29 0 [.connError] (-1) []
      (by omega)]
    simp only [waitLoop]
    rw [if_pos (by omega)]

/-- Witness for C2: 30 consecutive connectivity faults fail fatally with
the task id, obtained from the general theorem at a concrete task. -/
theorem conn_fault_ceiling_witness :
    wait_for_completion "t".toList (List.replicate 30 .connError)
      = .fatalConnLost "t".toList [] :=
  (conn_fault_ceiling "t".toList [] 0 (-1) [] ⟨"RUNNING".toList, 5, none⟩
    (by omega) ⟨by decide, by decide, by decide⟩).2.2.2.2

/-- C5: a terminal `COMPLETED` status makes the monitor return success,
and a terminal `FAILED` or `CANCELED` status fails with a diagnostic
carrying the status, the last-error detail, the full status payload, and
the last reported progress (the loop's `last_progress`, which at the
raise site equals the payload's progress value). -/
theorem terminal_status_spec (taskId : List Char) (maxConnErrors conn : Nat)
    (rest : List PollEvent) (lastProgress : Int) (reports : List Int)
    (info : StatusInfo) :
    (info.status = "COMPLETED".toList →
      waitLoop taskId maxConnErrors (.ok info :: rest) conn lastProgress reports
        = .completed (if info.progress ≠ lastProgress then
            reports ++ [max 0 (min 100 info.progress)] else reports))
    ∧ ((info.status = "FAILED".toList ∨ info.status = "CANCELED".toList) →
      waitLoop taskId maxConnErrors (.ok info :: rest) conn lastProgress reports
        = .fatalTerminal info.status info.lastError info info.progress
            (if info.progress ≠ lastProgress then
              reports ++ [max 0 (min 100 info.progress)] else reports)) := by
  constructor
  · intro hc
    simp only [waitLoop]
    rw [if_pos hc]
  · intro ht
    have hnc : ¬ info.status = "COMPLETED".toList := by
      rcases ht with h | h <;> rw [h] <;> decide
    simp only [waitLoop]
    rw [if_neg hnc, if_pos ht]

/-- Witness for C5: a `CANCELED` poll at progress 40 with error detail
`boom` fails with status, error detail, payload and progress 40. -/
theorem terminal_status_spec_witness :
    waitLoop "t".toList 30 [.ok ⟨"CANCELED".toList, 40, some "boom".toList⟩] 0
        (-1) []
      = .fatalTerminal "CANCELED".toList (some "boom".toList)
          ⟨"CANCELED".toList, 40, some "boom".toList⟩ 40 [40] := by
  have h := (terminal_status_spec "t".toList 30 0 [] (-1) []
      ⟨"CANCELED".toList, 40, some "boom".toList⟩).2 (Or.inr rfl)
  simpa using h

/-- The progress values appended by the `progress != last_progress`
block of the monitor across a run of successful non-terminal queries,
starting from a previously reported value `lp`: a changed value is shown
clamped to `[0, 100]` and becomes the comparison point for the next
cycle. -/
def reportsFrom : Int → List Int → List Int
  | _, [] => []
  | lp, p :: rest =>
      if p ≠ lp then max 0 (min 100 p) :: reportsFrom p rest
      else reportsFrom lp rest

/-- Running the monitor over a script of successful non-terminal queries
accumulates exactly the `reportsFrom` values. -/
theorem waitLoop_okScript (taskId : List Char) (maxConnErrors : Nat)
    (ps : List Int) : ∀ (conn : Nat) (lp : Int) (rs : List Int),
    (waitLoop taskId maxConnErrors (ps.map okEvent) conn lp rs).reportList
      = rs ++ reportsFrom lp ps := by
  induction ps with
  | nil => intro conn lp rs; simp [waitLoop, reportsFrom, MonitorOutcome.reportList]
  | cons p rest ih =>
      intro conn lp rs
      rw [List.map_cons]
      simp only [okEvent, waitLoop, reportsFrom]
      rw [if_neg (by decide), if_neg (by rintro (h | h) <;> exact absurd h (by decide))]
      by_cases h : p = lp
      · subst h
        simp [ih]
      · rw [if_pos h, if_pos h, ih]
        simp

/-- C4 counterexample: the progress script `[0, 10, 0]` makes the
monitor notify the observer of the value `0` twice (the reports are
`[0, 10, 0]`), although `0` is a single distinct progress value — the
monitor deduplicates only consecutively repeated values, not all
repetitions of a distinct value. -/
theorem progress_report_counterexample :
    (wait_for_completion "t".toList ([0, 10, 0].map okEvent)).reportList
      = [0, 10, 0]
    ∧ ((wait_for_completion "t".toList ([0, 10, 0].map okEvent)).reportList).count 0
      = 2 := by
  constructor <;> rfl

/-- C4 (amended): the monitor reports a progress value exactly when it
differs from the previously reported one — the reports are the
consecutive deduplication (`destutter`) of the queried progress
sequence; in particular `[0, 0, 10, 10, 100]` yields exactly the three
notifications `0, 10, 100`. -/
theorem progress_report_dedup (taskId : List Char) (ps : List Int)
    (hbound : ∀ p ∈ ps, 0 ≤ p ∧ p ≤ 100) :
    (wait_for_completion taskId (ps.map okEvent)).reportList
      = ps.destutter (· ≠ ·)
    ∧ (wait_for_completion taskId (([0, 0, 10, 10, 100] : List Int).map okEvent)).reportList
      = [0, 10, 100] := by
  have main : ∀ (l : List Int) (a : Int), (∀ p ∈ l, 0 ≤ p ∧ p ≤ 100) →
      a :: reportsFrom a l = List.destutter' (· ≠ ·) a l := by
    intro l
    induction l with
    | nil => intro a _; rfl
    | cons p rest ih =>
        intro a hb
        have hp := hb p (List.mem_cons_self p rest)
        have hrest : ∀ q ∈ rest, 0 ≤ q ∧ q ≤ 100 :=
          fun q hq => hb q (List.mem_cons_of_mem p hq)
        rw [List.destutter'_cons]
        by_cases h : a = p
        · subst h
          rw [if_neg (by simp), reportsFrom, if_neg (by simp), ih a hrest]
        · rw [if_pos h, reportsFrom, if_pos (Ne.symm h), ← ih p hrest]
          have : max 0 (min 100 p) = p := by omega
          rw [this]
  constructor
  · rw [wait_for_completion, waitLoop_okScript, List.nil_append]
    cases ps with
    | nil => rfl
    | cons p rest =>
        have hp := hbound p (List.mem_cons_self p rest)
        have hrest : ∀ q ∈ rest, 0 ≤ q ∧ q ≤ 100 :=
          fun q hq => hbound q (List.mem_cons_of_mem p hq)
        rw [List.destutter, ← main rest p hrest, reportsFrom,
          if_pos (by omega : p ≠ (-1 : Int))]
        have : max 0 (min 100 p) = p := by omega
        rw [this]
  · rfl

/-- Witness for C4's amended theorem at the script `[0, 0, 10, 10, 100]`
from the specification. -/
theorem progress_report_dedup_witness :
    (wait_for_completion "t".toList (([0, 0, 10, 10, 100] : List Int).map okEvent)).reportList
      = ([0, 0, 10, 10, 100] : List Int).destutter (· ≠ ·) :=
  (progress_report_dedup "t".toList [0, 0, 10, 10, 100] (by decide)).1

/-- C6 counterexample: for the source value `"a\tb"` the code keeps one
address `"a\tb"` (a tab does not separate), while splitting on commas,
newlines, and whitespace — as the claim states — would give the two
addresses `"a"` and `"b"`. -/
theorem hosts_split_counterexample :
    get_odm_hosts "a\tb".toList "d".toList = ["a\tb".toList]
    ∧ get_odm_hosts_specSplit "a\tb".toList "d".toList = ["a".toList, "b".toList]
    ∧ get_odm_hosts "a\tb".toList "d".toList
        ≠ get_odm_hosts_specSplit "a\tb".toList "d".toList := by
  refine ⟨rfl, rfl, ?_⟩
  decide

/-- Splitting a character-wise substituted string on `sep` is splitting
the original on the preimage predicate, provided the substitution only
moves characters onto `sep`. -/
theorem splitOnChar_map (f : Char → Char) (sep : Char)
    (hid : ∀ c, f c ≠ sep → f c = c) (l : List Char) :
    splitOnChar sep (l.map f) = splitOnPred (fun c => decide (f c = sep)) l := by
  induction l with
  | nil => rfl
  | cons c rest ih =>
      rw [List.map_cons]
      simp only [splitOnChar, splitOnPred, ih]
      cases hs : splitOnPred (fun c => decide (f c = sep)) rest with
      | nil => by_cases h : f c = sep <;> simp [h]
      | cons t ts =>
          by_cases h : f c = sep
          · simp [h]
          · simp [h, hid c h]

/-- `splitOnPred` depends only on the pointwise behaviour of the
separator predicate. -/
theorem splitOnPred_congr (p q : Char → Bool) (h : ∀ c, p c = q c)
    (l : List Char) : splitOnPred p l = splitOnPred q l := by
  induction l with
  | nil => rfl
  | cons c rest ih => simp only [splitOnPred, ih, h]

/-- `splitOnChar` always returns at least one token. -/
theorem splitOnChar_ne_nil (sep : Char) (l : List Char) :
    splitOnChar sep l ≠ [] := by
  cases l with
  | nil => simp [splitOnChar]
  | cons c rest =>
      simp only [splitOnChar]
      cases splitOnChar sep rest with
      | nil => simp
      | cons t ts =>
          by_cases h : c = sep <;> simp [h]

/-- Every character of a token produced by `splitOnChar` occurs in the
input and is not the separator. -/
theorem splitOnChar_token_chars (sep : Char) (l : List Char) :
    ∀ t ∈ splitOnChar sep l, ∀ c ∈ t, c ∈ l ∧ c ≠ sep := by
  induction l with
  | nil =>
      intro t ht c hc
      simp [splitOnChar] at ht
      subst ht
      simp at hc
  | cons d rest ih =>
      intro t ht c hc
      rcases hs : splitOnChar sep rest with _ | ⟨t0, ts⟩
      · exact absurd hs (splitOnChar_ne_nil sep rest)
      · rw [splitOnChar, hs] at ht
        dsimp only at ht
        by_cases hd : d = sep
        · rw [if_pos hd] at ht
          rcases List.mem_cons.mp ht with rfl | ht
          · simp at hc
          · have := ih t (by rw [hs]; exact ht) c hc
            exact ⟨List.mem_cons_of_mem d this.1, this.2⟩
        · rw [if_neg hd] at ht
          rcases List.mem_cons.mp ht with rfl | ht
          · rcases List.mem_cons.mp hc with rfl | hc
            · exact ⟨List.mem_cons_self c rest, hd⟩
            · have := ih t0 (by rw [hs]; exact List.mem_cons_self t0 ts) c hc
              exact ⟨List.mem_cons_of_mem d this.1, this.2⟩
          · have := ih t (by rw [hs]; exact List.mem_cons_of_mem t0 ht) c hc
            exact ⟨List.mem_cons_of_mem d this.1, this.2⟩

/-- Stripping a token made only of whitespace yields the empty token. -/
theorem pyStrip_all_whitespace (t : List Char)
    (h : ∀ c ∈ t, isPyWhitespace c) : pyStrip t = [] := by
  rw [pyStrip, List.dropWhile_eq_nil_iff.mpr h]
  simp

/-- C6 (amended): host resolution splits on commas, spaces, and newline
characters (other whitespace such as a tab does not separate, though it
is trimmed from token ends), always yields at least one address, returns
exactly `[default]` when the split produces no non-empty token, and in
particular returns `[default]` for all-whitespace input. -/
theorem hosts_resolution_spec (raw d : List Char) :
    get_odm_hosts raw d = get_odm_hosts_threeSep raw d
    ∧ get_odm_hosts raw d ≠ []
    ∧ (((splitOnChar ',' (sepSubst raw)).map pyStrip).filter (· ≠ []) = [] →
        get_odm_hosts raw d = [d])
    ∧ ((∀ c ∈ raw, isPyWhitespace c) → get_odm_hosts raw d = [d]) := by
  have hsubst : sepSubst raw
      = raw.map ((fun c => if c = ' ' then ',' else c)
          ∘ (fun c => if c = '\n' then ',' else c)) := by
    rw [sepSubst, List.map_map]
  have hsplit : splitOnChar ',' (sepSubst raw)
      = splitOnPred (fun c => c = ',' || c = ' ' || c = '\n') raw := by
    rw [hsubst, splitOnChar_map _ ','
      (by
        intro c
        by_cases h1 : c = '\n' <;> by_cases h2 : c = ' ' <;>
          simp [h1, h2, Function.comp])]
    apply splitOnPred_congr
    intro c
    by_cases h1 : c = '\n' <;> by_cases h2 : c = ' ' <;> by_cases h3 : c = ',' <;>
      simp [h1, h2, h3, Function.comp]
  refine ⟨?_, ?_, ?_, ?_⟩
  · rw [get_odm_hosts, get_odm_hosts_threeSep, hsplit]
  · rw [get_odm_hosts]
    split
    · simp
    · rename_i h
      exact h
  · intro h
    rw [get_odm_hosts, if_pos h]
  · intro hws
    have htokens : ∀ t ∈ splitOnChar ',' (sepSubst raw), ∀ c ∈ t,
        isPyWhitespace c := by
      intro t ht c hc
      have hmem := splitOnChar_token_chars ',' (sepSubst raw) t ht c hc
      rw [hsubst] at hmem
      rcases List.mem_map.mp hmem.1 with ⟨c0, hc0, hc0eq⟩
      have hwc0 := hws c0 hc0
      by_cases h1 : c0 = '\n'
      · exfalso
        apply hmem.2
        rw [← hc0eq, h1]
        rfl
      · by_cases h2 : c0 = ' '
        · exfalso
          apply hmem.2
          rw [← hc0eq, h2]
          rfl
        · rw [← hc0eq]
          simpa [Function.comp, h1, h2] using hwc0
    have hparts : ((splitOnChar ',' (sepSubst raw)).map pyStrip).filter (· ≠ [])
        = [] := by
      rw [List.filter_eq_nil_iff]
      intro a ha
      rcases List.mem_map.mp ha with ⟨t, ht, rfl⟩
      simp [pyStrip_all_whitespace t (htokens t ht)]
    rw [get_odm_hosts, if_pos hparts]

/-- Witness for C6's amended theorem: the mixed-separator source string
`"h1, h2\nh3"` resolves identically under the code and the three-charac-
ter separator reading, and the all-whitespace string `" \t "` resolves
to exactly the default. -/
theorem hosts_resolution_spec_witness :
    get_odm_hosts "h1, h2\nh3".toList "d".toList
      = get_odm_hosts_threeSep "h1, h2\nh3".toList "d".toList
    ∧ get_odm_hosts " \t ".toList "d".toList = ["d".toList] :=
  ⟨(hosts_resolution_spec "h1, h2\nh3".toList "d".toList).1,
   (hosts_resolution_spec " \t ".toList "d".toList).2.2.2 (by decide)⟩

/-- `loadLt` is irreflexive. -/
theorem loadLt_irrefl (a : Nat × Nat × Nat) : loadLt a a = false := by
  obtain ⟨a1, a2, a3⟩ := a
  simp only [loadLt, decide_eq_false_iff_not]
  omega

/-- If `a` beats `b` and does not beat `c`, then `b` does not beat `c`
(the lexicographic comparison is a strict linear order). -/
theorem loadLt_lt_false_trans (a b c : Nat × Nat × Nat)
    (h1 : loadLt a b = true) (h2 : loadLt a c = false) : loadLt b c = false := by
  obtain ⟨a1, a2, a3⟩ := a
  obtain ⟨b1, b2, b3⟩ := b
  obtain ⟨c1, c2, c3⟩ := c
  simp only [loadLt, decide_eq_true_eq, decide_eq_false_iff_not] at *
  omega

/-- Failing to beat is transitive for the lexicographic comparison. -/
theorem loadLt_false_trans (a b c : Nat × Nat × Nat)
    (h1 : loadLt a b = false) (h2 : loadLt b c = false) :
    loadLt a c = false := by
  obtain ⟨a1, a2, a3⟩ := a
  obtain ⟨b1, b2, b3⟩ := b
  obtain ⟨c1, c2, c3⟩ := c
  simp only [loadLt, decide_eq_false_iff_not] at *
  omega

/-- When every probe fails, the probing loop leaves the running best
unchanged. -/
theorem pickBestGo_all_fail (probe : List Char → Option (Nat × Nat × Nat)) :
    ∀ (hs : List (List Char)), (∀ h ∈ hs, probe h = none) →
    ∀ best, pickBestGo probe hs best = best := by
  intro hs
  induction hs with
  | nil => intro _ best; rfl
  | cons h0 rest ih =>
      intro hall best
      rw [pickBestGo, hall h0 (List.mem_cons_self h0 rest)]
      exact ih (fun h hh => hall h (List.mem_cons_of_mem h0 hh)) best

/-- The probing loop never loses a best candidate it already holds. -/
theorem pickBestGo_some_ne_none (probe : List Char → Option (Nat × Nat × Nat)) :
    ∀ (hs : List (List Char)) (x : (Nat × Nat × Nat) × List Char),
    pickBestGo probe hs (some x) ≠ none := by
  intro hs
  induction hs with
  | nil => intro x h; exact Option.noConfusion h
  | cons h0 rest ih =>
      intro x
      rw [pickBestGo]
      cases hp : probe h0 with
      | none => exact ih x
      | some load =>
          obtain ⟨bl, bh⟩ := x
          dsimp only
          by_cases hlt : loadLt load bl = true
          · rw [if_pos hlt]
            exact ih _
          · rw [if_neg hlt]
            exact ih _

/-- If the probing loop ends with no best candidate, every probe
failed. -/
theorem pickBestGo_none_forall (probe : List Char → Option (Nat × Nat × Nat)) :
    ∀ (hs : List (List Char)) best, pickBestGo probe hs best = none →
    ∀ h ∈ hs, probe h = none := by
  intro hs
  induction hs with
  | nil => intro best _ h hh; exact absurd hh (List.not_mem_nil h)
  | cons h0 rest ih =>
      intro best hnone h hh
      rw [pickBestGo] at hnone
      cases hp : probe h0 with
      | none =>
          rw [hp] at hnone
          rcases List.mem_cons.mp hh with rfl | hh
          · exact hp
          · exact ih best hnone h hh
      | some load =>
          rw [hp] at hnone
          exfalso
          cases best with
          | none => exact pickBestGo_some_ne_none probe rest _ hnone
          | some b =>
              obtain ⟨bl, bh⟩ := b
              dsimp only at hnone
              by_cases hlt : loadLt load bl = true
              · rw [if_pos hlt] at hnone
                exact pickBestGo_some_ne_none probe rest _ hnone
              · rw [if_neg hlt] at hnone
                exact pickBestGo_some_ne_none probe rest _ hnone

/-- Invariant of the probing loop: a returned best candidate either was
probed successfully among the scanned hosts or was the initial best, no
scanned successful probe strictly beats it, and it is no worse than the
initial best. -/
theorem pickBestGo_some_spec (probe : List Char → Option (Nat × Nat × Nat)) :
    ∀ (hs : List (List Char)) best l h,
    pickBestGo probe hs best = some (l, h) →
    ((h ∈ hs ∧ probe h = some l) ∨ best = some (l, h))
    ∧ (∀ h' l', h' ∈ hs → probe h' = some l' → loadLt l' l = false)
    ∧ (∀ bl bh, best = some (bl, bh) → loadLt bl l = false) := by
  intro hs
  induction hs with
  | nil =>
      intro best l h heq
      refine ⟨Or.inr heq, fun h' l' hh' => absurd hh' (List.not_mem_nil h'), ?_⟩
      rintro bl bh rfl
      cases heq
      exact loadLt_irrefl l
  | cons h0 rest ih =>
      intro best l h heq
      rw [pickBestGo] at heq
      cases hp : probe h0 with
      | none =>
          rw [hp] at heq
          obtain ⟨hA, hB, hC⟩ := ih best l h heq
          refine ⟨?_, ?_, hC⟩
          · rcases hA with ⟨hmem, hpr⟩ | hb
            · exact Or.inl ⟨List.mem_cons_of_mem h0 hmem, hpr⟩
            · exact Or.inr hb
          · intro h' l' hh' hpr'
            rcases List.mem_cons.mp hh' with rfl | hh'
            · rw [hp] at hpr'
              exact Option.noConfusion hpr'
            · exact hB h' l' hh' hpr'
      | some load =>
          rw [hp] at heq
          cases best with
          | none =>
              obtain ⟨hA, hB, hC⟩ := ih (some (load, h0)) l h heq
              have hload : loadLt load l = false := hC load h0 rfl
              refine ⟨?_, ?_, ?_⟩
              · rcases hA with ⟨hmem, hpr⟩ | hb
                · exact Or.inl ⟨List.mem_cons_of_mem h0 hmem, hpr⟩
                · cases hb
                  exact Or.inl ⟨List.mem_cons_self h0 rest, hp⟩
              · intro h' l' hh' hpr'
                rcases List.mem_cons.mp hh' with rfl | hh'
                · rw [hp] at hpr'
                  cases hpr'
                  exact hload
                · exact hB h' l' hh' hpr'
              · intro bl bh hb
                exact Option.noConfusion hb
          | some b =>
              obtain ⟨bl, bh⟩ := b
              dsimp only at heq
              by_cases hlt : loadLt load bl = true
              · rw [if_pos hlt] at heq
                obtain ⟨hA, hB, hC⟩ := ih (some (load, h0)) l h heq
                have hload : loadLt load l = false := hC load h0 rfl
                refine ⟨?_, ?_, ?_⟩
                · rcases hA with ⟨hmem, hpr⟩ | hb
                  · exact Or.inl ⟨List.mem_cons_of_mem h0 hmem, hpr⟩
                  · cases hb
                    exact Or.inl ⟨List.mem_cons_self h0 rest, hp⟩
                · intro h' l' hh' hpr'
                  rcases List.mem_cons.mp hh' with rfl | hh'
                  · rw [hp] at hpr'
                    cases hpr'
                    exact hload
                  · exact hB h' l' hh' hpr'
                · rintro bl' bh' ⟨rfl, rfl⟩
                  exact loadLt_lt_false_trans load bl l hlt hload
              · rw [if_neg hlt] at heq
                obtain ⟨hA, hB, hC⟩ := ih (some (bl, bh)) l h heq
                have hbl : loadLt bl l = false := hC bl bh rfl
                have hload : loadLt load l = false :=
                  loadLt_false_trans load bl l (by simpa using hlt) hbl
                refine ⟨?_, ?_, ?_⟩
                · rcases hA with ⟨hmem, hpr⟩ | hb
                  · exact Or.inl ⟨List.mem_cons_of_mem h0 hmem, hpr⟩
                  · exact Or.inr hb
                · intro h' l' hh' hpr'
                  rcases List.mem_cons.mp hh' with rfl | hh'
                  · rw [hp] at hpr'
                    cases hpr'
                    exact hload
                  · exact hB h' l' hh' hpr'
                · rintro bl' bh' ⟨rfl, rfl⟩
                  exact hbl

/-- C1: for every non-empty address list, node selection excludes every
address whose probe fails and returns a successfully probed address
whose load triple `(running, queued, total)` is lexicographically
minimal among all successful probes; if every probe fails it returns the
address at position 0 of the input list. -/
theorem pick_best_spec (hosts : List (List Char))
    (probe : List Char → Option (Nat × Nat × Nat)) (hne : hosts ≠ []) :
    ((∀ h ∈ hosts, probe h = none) →
      pick_best_odm_host hosts probe = .ok (hosts.head hne))
    ∧ (∀ h0 ∈ hosts, probe h0 ≠ none →
      ∃ h load, h ∈ hosts ∧ probe h = some load
        ∧ pick_best_odm_host hosts probe = .ok h
        ∧ ∀ h' load', h' ∈ hosts → probe h' = some load' →
            loadLt load' load = false) := by
  cases hosts with
  | nil => exact absurd rfl hne
  | cons a rest =>
      constructor
      · intro hall
        rw [pick_best_odm_host, pickBestGo_all_fail probe (a :: rest) hall none]
        simp
      · intro h0 hmem hprobe
        rcases hbg : pickBestGo probe (a :: rest) none with _ | ⟨l, h⟩
        · exact absurd (pickBestGo_none_forall probe (a :: rest) none hbg h0 hmem)
            hprobe
        · obtain ⟨hA, hB, _⟩ := pickBestGo_some_spec probe (a :: rest) none l h hbg
          rcases hA with ⟨hh, hpr⟩ | hb
          · refine ⟨h, l, hh, hpr, ?_, hB⟩
            rw [pick_best_odm_host, hbg]
          · exact Option.noConfusion hb

/-- The hosts of the specification's node-selector example. -/
def hostsExample : List (List Char) := ["A".toList, "B".toList, "C".toList]

/-- The probe results of the specification's node-selector example:
`A = (2, 1, 3)`, `B = (0, 5, 5)`, `C` fails. -/
def probeExample : List Char → Option (Nat × Nat × Nat) := fun h =>
  if h = "A".toList then some (2, 1, 3)
  else if h = "B".toList then some (0, 5, 5)
  else none

/-- Witness for C1 at the specification's example: some successfully
probed host is selected, with a lexicographically minimal load. -/
theorem pick_best_spec_witness :
    ∃ h load, h ∈ hostsExample ∧ probeExample h = some load
      ∧ pick_best_odm_host hostsExample probeExample = .ok h
      ∧ ∀ h' load', h' ∈ hostsExample → probeExample h' = some load' →
          loadLt load' load = false :=
  (pick_best_spec hostsExample probeExample (by decide)).2 "A".toList (by decide)
    (by decide)

end ODM

